import Mathlib

/-!
Shallow embedding of `investment-game.py`: a single-round investment game in
which investors allocate a cash balance across a market snapshot according to
pluggable stock-selection strategies, and portfolios are revalued against a
later snapshot.

Modelling conventions:
* Python numbers (prices, balances, bounds) are embedded as `ℚ`.
* A Python dict is embedded as an insertion-ordered association list
  `List (String × _)`; `dictGet` is subscript lookup (first matching key) and
  `dictSet` is subscript assignment (overwrite in place, else append), which
  matches CPython's insertion-ordered dict semantics.
* A stock record's optional attributes (`change`, `market_cap`, `volatility`)
  are `Option ℚ`; a `.get(k, default)` access supplies the default, while a
  bare subscript access on a missing key is a `KeyError`, embedded as `none`
  in an `Option`-valued result.
* Python's `int()` truncates toward zero; `pyInt` embeds it.
* Python's `sorted` with a key function is a stable sort; it is embedded by
  `List.mergeSort`, which is stable.
* `float('inf')` appearing as the default of `.get` in the criteria filter is
  embedded by `WithTop ℚ` with the missing attribute mapped to `⊤`.
-/

/-- One stock record of a market snapshot: `price` is always present, the
remaining attributes are optional per the data model. -/
structure StockData where
  price : ℚ
  change : Option ℚ := none
  market_cap : Option ℚ := none
  volatility : Option ℚ := none
deriving DecidableEq

/-- A market snapshot: the insertion-ordered dict from symbol to record. -/
abbrev MarketData := List (String × StockData)

/-- Dict lookup (`d[k]` / `k in d`): the value at the first matching key. -/
def dictGet {β : Type} : List (String × β) → String → Option β
  | [], _ => none
  | (k, v) :: rest, s => if k = s then some v else dictGet rest s

/-- Dict assignment (`d[k] = v`): overwrite the entry in place when the key is
present, keeping its position, else append a new entry at the end. -/
def dictSet {β : Type} : List (String × β) → String → β → List (String × β)
  | [], k, v => [(k, v)]
  | (k₁, v₁) :: rest, k, v =>
    if k₁ = k then (k, v) :: rest else (k₁, v₁) :: dictSet rest k v

/-- Python's `int()` on an exact rational: truncation toward zero. -/
def pyInt (q : ℚ) : ℤ := if 0 ≤ q then Rat.floor q else -(Rat.floor (-q))

/-- Shared body of `AggressiveStrategy.select_stocks` and
`ConservativeStrategy.select_stocks`:
`sorted(market_data.items(), key = lambda x: key(x[1]['change']))[:10]`,
returning the symbols. The subscript `['change']` raises `KeyError` when any
record lacks the attribute (Python's `sorted` evaluates the key function on
every element), embedded as `none`. -/
def selectSortedBy (key : ℚ → ℚ) (md : MarketData) : Option (List String) :=
  if ∀ kv ∈ md, kv.2.change.isSome then
    some (((md.mergeSort (fun a b =>
      decide (key (a.2.change.getD 0) ≤ key (b.2.change.getD 0)))).take 10).map
        Prod.fst)
  else none

/-- `AggressiveStrategy.select_stocks`: sort by `change` ascending, take 10. -/
def aggressive_select_stocks (md : MarketData) : Option (List String) :=
  selectSortedBy (fun c => c) md

/-- `ConservativeStrategy.select_stocks`: sort by `abs(change)` ascending,
take 10. -/
def conservative_select_stocks (md : MarketData) : Option (List String) :=
  selectSortedBy (fun c => |c|) md

/-- `CustomStrategy.select_stocks`: the supplied symbols that are present in
the market data, in the supplied order. No cap is applied. -/
def custom_select_stocks (stocks : List String) (md : MarketData) :
    List String :=
  stocks.filter (fun s => (dictGet md s).isSome)

/-- `data.get(attr, float('inf'))`: the attribute value, or `⊤` when absent. -/
def attrVal (o : Option ℚ) : WithTop ℚ :=
  match o with
  | some x => (x : WithTop ℚ)
  | none => ⊤

/-- One chained comparison `lo <= data.get(attr, float('inf')) <= hi` of the
criteria filter in `create_custom_strategy`. -/
def inRange (lo hi : ℚ) (attr : Option ℚ) : Bool :=
  decide ((lo : WithTop ℚ) ≤ attrVal attr) &&
    decide (attrVal attr ≤ (hi : WithTop ℚ))

/-- The `selected_stocks` list comprehension of `create_custom_strategy`
(the live second definition): symbols whose `market_cap` and `volatility`
both pass the bounds check, in snapshot iteration order. -/
def criteria_selected (minCap maxCap minVol maxVol : ℚ) (md : MarketData) :
    List String :=
  (md.filter (fun kv =>
    inRange minCap maxCap kv.2.market_cap &&
      inRange minVol maxVol kv.2.volatility)).map Prod.fst

/-- `create_custom_strategy` (live second definition): `None` when no symbol
qualifies, else the strategy built from the first 10 qualifying symbols; the
resulting `CustomStrategy`'s selection on the same snapshot is exactly that
capped list, since all its symbols are present in the snapshot. -/
def create_custom_strategy (minCap maxCap minVol maxVol : ℚ)
    (md : MarketData) : Option (List String) :=
  if criteria_selected minCap maxCap minVol maxVol md = [] then none
  else some ((criteria_selected minCap maxCap minVol maxVol md).take 10)

/-- The `Investor` state: name, cash balance, and holdings map (the source's
`self.portfolio` dict from symbol to share count). -/
structure Investor where
  name : String
  balance : ℚ
  holdings : List (String × ℤ)

/-- The price of a symbol in a snapshot, defaulting to 0 when absent (used
only under a presence hypothesis). -/
def priceOf (md : MarketData) (s : String) : ℚ :=
  ((dictGet md s).map StockData.price).getD 0

/-- The loop body of `Investor.invest`: for each selected symbol in order,
`shares = int(amount_per_stock / price)`, overwrite the holdings entry, and
decrement the balance by `shares * price`. A symbol absent from the market
data raises `KeyError`, embedded as `none`. -/
def investGo (md : MarketData) (aps : ℚ) :
    List String → ℚ → List (String × ℤ) → Option (ℚ × List (String × ℤ))
  | [], b, h => some (b, h)
  | s :: rest, b, h =>
    match dictGet md s with
    | none => none
    | some d =>
      investGo md aps rest (b - (pyInt (aps / d.price) : ℚ) * d.price)
        (dictSet h s (pyInt (aps / d.price)))

/-- `Investor.invest`, with the strategy's returned symbol list passed in
explicitly: if the selection is empty the investor is unchanged, else
`amount_per_stock = balance / len(stocks)` and the loop runs. -/
def invest (inv : Investor) (md : MarketData) (stocks : List String) :
    Option Investor :=
  if stocks.length = 0 then some inv
  else
    match investGo md (inv.balance / (stocks.length : ℚ)) stocks inv.balance
        inv.holdings with
    | none => none
    | some (b, h) => some ⟨inv.name, b, h⟩

/-- The cost charged for one processed symbol: `shares * price`. -/
def costTerm (md : MarketData) (aps : ℚ) (s : String) : ℚ :=
  (pyInt (aps / priceOf md s) : ℚ) * priceOf md s

/-- The total cost charged across all processed entries, duplicates included. -/
def costSum (md : MarketData) (aps : ℚ) (stocks : List String) : ℚ :=
  (stocks.map (costTerm md aps)).sum

/-- The holdings map after the `invest` loop: each selected symbol written in
processing order (later entries overwrite earlier ones). -/
def portfolioAfter (md : MarketData) (aps : ℚ) (stocks : List String)
    (h : List (String × ℤ)) : List (String × ℤ) :=
  stocks.foldl (fun acc s => dictSet acc s (pyInt (aps / priceOf md s))) h

/-- The `initial_value` sum of `calculate_portfolio_return`:
`sum(initial_market_data[stock]['price'] * quantity ...)` — the bare subscript
raises `KeyError` (embedded as `none`) when a held symbol is absent. -/
def initial_value (holdings : List (String × ℤ)) (md : MarketData) :
    Option ℚ :=
  match holdings with
  | [] => some 0
  | (s, q) :: rest =>
    match dictGet md s, initial_value rest md with
    | some d, some acc => some (d.price * (q : ℚ) + acc)
    | _, _ => none

/-- The `final_value` sum of `calculate_portfolio_return`: held symbols absent
from the snapshot are skipped by the `if stock in final_market_data` guard. -/
def final_value (holdings : List (String × ℤ)) (md : MarketData) : ℚ :=
  (holdings.filterMap (fun kv =>
    (dictGet md kv.1).map (fun d => d.price * (kv.2 : ℚ)))).sum

/-- `calculate_portfolio_return`: percent return between two snapshots, with
the zero-baseline case returning a bare `0` (the message is only printed). -/
def calculate_portfolio_return (holdings : List (String × ℤ))
    (initMd finMd : MarketData) : Option ℚ :=
  match initial_value holdings initMd with
  | none => none
  | some iv =>
    if iv = 0 then some 0
    else some ((final_value holdings finMd - iv) / iv * 100)

/-- Python's `max(results, key=results.get)` on the insertion-ordered results
dict: the first key attaining the maximal value; `ValueError` on an empty
dict, embedded as `none`. -/
def pyMax (m : List (String × ℚ)) : Option String :=
  match m with
  | [] => none
  | kv :: rest =>
    some (rest.foldl (fun best q => if q.2 > best.2 then q else best) kv).1

/-- The results-building loop of `compare_portfolios`:
`results[investor.name] = return_pct` for each investor in order. -/
def buildResults (initMd finMd : MarketData) :
    List Investor → List (String × ℚ) → Option (List (String × ℚ))
  | [], acc => some acc
  | inv :: rest, acc =>
    match calculate_portfolio_return inv.holdings initMd finMd with
    | none => none
    | some r => buildResults initMd finMd rest (dictSet acc inv.name r)

/-- `compare_portfolios`: the per-investor percent-return mapping and the best
performer it computes and reports. -/
def compare_portfolios (invs : List Investor) (initMd finMd : MarketData) :
    Option (List (String × ℚ) × String) :=
  match buildResults initMd finMd invs [] with
  | none => none
  | some results =>
    match pyMax results with
    | none => none
    | some best => some (results, best)


/-- The `change` attribute of a symbol's record, defaulting to 0 (used only
where the symbol is present with the attribute set). -/
def changeOf (md : MarketData) (s : String) : ℚ :=
  ((dictGet md s).bind StockData.change).getD 0

/-- The running-best state of Python's `max` over the remaining keys:
replace the current best only on a strictly greater value, so the first
maximal entry wins. -/
def pyMaxGo (b : String × ℚ) (rest : List (String × ℚ)) : String × ℚ :=
  rest.foldl (fun best q => if q.2 > best.2 then q else best) b

/-- The results dict built by the loop of `compare_portfolios`, as a total
function (meaningful under the hypothesis that every percent return
computes). -/
def resultsOf (initMd finMd : MarketData) (invs : List Investor)
    (acc : List (String × ℚ)) : List (String × ℚ) :=
  invs.foldl (fun acc inv =>
    dictSet acc inv.name
      ((calculate_portfolio_return inv.holdings initMd finMd).getD 0)) acc

/-! ### Basic lemmas about the embedded primitives -/

theorem pyInt_eq_floor {q : ℚ} (h : 0 ≤ q) : pyInt q = ⌊q⌋ := by
  rw [pyInt, if_pos h, Rat.floor_def', ← Rat.floor_def]

theorem dictGet_append {β : Type} (m m' : List (String × β)) (s : String) :
    dictGet (m ++ m') s = (dictGet m s).or (dictGet m' s) := by
  induction m with
  | nil => simp [dictGet]
  | cons kv rest ih =>
    obtain ⟨k, v⟩ := kv
    by_cases h : k = s <;> simp [dictGet, h, ih]

theorem dictGet_eq_none_iff {β : Type} (m : List (String × β)) (s : String) :
    dictGet m s = none ↔ s ∉ m.map Prod.fst := by
  induction m with
  | nil => simp [dictGet]
  | cons kv rest ih =>
    obtain ⟨k, v⟩ := kv
    by_cases h : k = s
    · simp [dictGet, h]
    · have h' : ¬ (s = k) := fun hh => h hh.symm
      simp [dictGet, h, h', ih]

theorem dictGet_isSome_iff {β : Type} (m : List (String × β)) (s : String) :
    (dictGet m s).isSome ↔ s ∈ m.map Prod.fst := by
  induction m with
  | nil => simp [dictGet]
  | cons kv rest ih =>
    obtain ⟨k, v⟩ := kv
    by_cases h : k = s
    · simp [dictGet, h]
    · have h' : ¬ (s = k) := fun hh => h hh.symm
      simp [dictGet, h, h', ih]

theorem dictGet_dictSet_self {β : Type} (m : List (String × β)) (k : String)
    (v : β) : dictGet (dictSet m k v) k = some v := by
  induction m with
  | nil => simp [dictGet, dictSet]
  | cons kv rest ih =>
    obtain ⟨k₁, v₁⟩ := kv
    by_cases h : k₁ = k
    · subst h
      simp [dictSet, dictGet]
    · simp [dictSet, dictGet, h, ih]

theorem dictGet_dictSet_ne {β : Type} (m : List (String × β)) (k s : String)
    (v : β) (h : s ≠ k) : dictGet (dictSet m k v) s = dictGet m s := by
  have hks : ¬ (k = s) := fun hh => h hh.symm
  induction m with
  | nil => simp [dictGet, dictSet, hks]
  | cons kv rest ih =>
    obtain ⟨k₁, v₁⟩ := kv
    by_cases h₁ : k₁ = k
    · subst h₁
      simp [dictSet, dictGet, hks]
    · by_cases h₂ : k₁ = s <;> simp [dictSet, dictGet, h₁, h₂, h, ih]

theorem dictSet_keys_of_mem {β : Type} (m : List (String × β)) (k : String)
    (v : β) (h : k ∈ m.map Prod.fst) :
    (dictSet m k v).map Prod.fst = m.map Prod.fst := by
  induction m with
  | nil => simp at h
  | cons kv rest ih =>
    obtain ⟨k₁, v₁⟩ := kv
    by_cases h₁ : k₁ = k
    · subst h₁
      simp [dictSet]
    · have : k ∈ rest.map Prod.fst := by
        rcases List.mem_cons.mp h with heq | htl
        · exact absurd heq.symm h₁
        · exact htl
      simp [dictSet, h₁, ih this]

theorem dictSet_keys_of_notMem {β : Type} (m : List (String × β)) (k : String)
    (v : β) (h : k ∉ m.map Prod.fst) :
    (dictSet m k v).map Prod.fst = m.map Prod.fst ++ [k] := by
  induction m with
  | nil => simp [dictSet]
  | cons kv rest ih =>
    obtain ⟨k₁, v₁⟩ := kv
    simp only [List.map_cons, List.mem_cons] at h
    push_neg at h
    have h₁ : k₁ ≠ k := fun hh => h.1 hh.symm
    simp [dictSet, h₁, ih h.2]

theorem dictSet_keys_nodup {β : Type} (m : List (String × β)) (k : String)
    (v : β) (h : (m.map Prod.fst).Nodup) :
    ((dictSet m k v).map Prod.fst).Nodup := by
  by_cases hmem : k ∈ m.map Prod.fst
  · rw [dictSet_keys_of_mem m k v hmem]
    exact h
  · rw [dictSet_keys_of_notMem m k v hmem]
    simp [List.nodup_append, h, hmem]

theorem dictSet_eq_append_of_notMem {β : Type} (m : List (String × β))
    (k : String) (v : β) (h : k ∉ m.map Prod.fst) :
    dictSet m k v = m ++ [(k, v)] := by
  induction m with
  | nil => simp [dictSet]
  | cons kv rest ih =>
    obtain ⟨k₁, v₁⟩ := kv
    simp only [List.map_cons, List.mem_cons] at h
    push_neg at h
    have h₁ : k₁ ≠ k := fun hh => h.1 hh.symm
    simp [dictSet, h₁, ih h.2]

theorem dictGet_of_mem_nodup {β : Type} {m : List (String × β)} {k : String}
    {v : β} (hnd : (m.map Prod.fst).Nodup) (hmem : (k, v) ∈ m) :
    dictGet m k = some v := by
  induction m with
  | nil => simp at hmem
  | cons kv rest ih =>
    obtain ⟨k₁, v₁⟩ := kv
    simp only [List.map_cons, List.nodup_cons] at hnd
    rcases List.mem_cons.mp hmem with heq | htl
    · injection heq with hk hv
      subst hk
      subst hv
      simp [dictGet]
    · have hk₁ : k₁ ≠ k := by
        intro hh
        exact hnd.1 (hh ▸ (List.mem_map.mpr ⟨(k, v), htl, rfl⟩))
      simp [dictGet, hk₁, ih hnd.2 htl]

theorem dictGet_append_cons {β : Type} (pre post : List (String × β))
    (k : String) (v : β) (h : k ∉ pre.map Prod.fst) :
    dictGet (pre ++ (k, v) :: post) k = some v := by
  rw [dictGet_append]
  have : dictGet pre k = none := (dictGet_eq_none_iff pre k).mpr h
  simp [this, dictGet]

/-! ### The allocation loop of `Investor.invest` -/

theorem priceOf_eq {md : MarketData} {s : String} {d : StockData}
    (h : dictGet md s = some d) : priceOf md s = d.price := by
  simp [priceOf, h]

theorem costSum_nil (md : MarketData) (aps : ℚ) : costSum md aps [] = 0 := by
  simp [costSum]

theorem costSum_cons (md : MarketData) (aps : ℚ) (s : String)
    (rest : List String) :
    costSum md aps (s :: rest) = costTerm md aps s + costSum md aps rest := by
  simp [costSum]

theorem investGo_eq (md : MarketData) (aps : ℚ) (stocks : List String)
    (hp : ∀ s ∈ stocks, (dictGet md s).isSome) :
    ∀ (b : ℚ) (h : List (String × ℤ)),
      investGo md aps stocks b h =
        some (b - costSum md aps stocks, portfolioAfter md aps stocks h) := by
  induction stocks with
  | nil => intro b h; simp [investGo, costSum_nil, portfolioAfter]
  | cons s rest ih =>
    intro b h
    obtain ⟨d, hd⟩ := Option.isSome_iff_exists.mp (hp s (List.mem_cons_self s rest))
    have hrest : ∀ t ∈ rest, (dictGet md t).isSome := fun t ht =>
      hp t (List.mem_cons_of_mem s ht)
    have hpr : priceOf md s = d.price := priceOf_eq hd
    simp only [investGo, hd]
    rw [ih hrest]
    rw [costSum_cons]
    congr 2
    · rw [costTerm, hpr]
      ring
    · simp only [portfolioAfter, List.foldl_cons, hpr]

theorem costTerm_bounds (md : MarketData) (aps : ℚ) (s : String)
    (hp : 0 < priceOf md s) (ha : 0 ≤ aps) :
    0 ≤ costTerm md aps s ∧ costTerm md aps s ≤ aps := by
  have hq : 0 ≤ aps / priceOf md s := div_nonneg ha hp.le
  rw [costTerm, pyInt_eq_floor hq]
  constructor
  · have h0 : (0 : ℚ) ≤ (⌊aps / priceOf md s⌋ : ℚ) := by
      exact_mod_cast Int.floor_nonneg.mpr hq
    exact mul_nonneg h0 hp.le
  · have hle : ((⌊aps / priceOf md s⌋ : ℤ) : ℚ) ≤ aps / priceOf md s :=
      Int.floor_le _
    calc ((⌊aps / priceOf md s⌋ : ℤ) : ℚ) * priceOf md s
        ≤ (aps / priceOf md s) * priceOf md s :=
          mul_le_mul_of_nonneg_right hle hp.le
      _ = aps := div_mul_cancel₀ aps hp.ne'

theorem costSum_bounds (md : MarketData) (aps : ℚ) (stocks : List String)
    (hp : ∀ s ∈ stocks, 0 < priceOf md s) (ha : 0 ≤ aps) :
    0 ≤ costSum md aps stocks ∧
      costSum md aps stocks ≤ (stocks.length : ℚ) * aps := by
  induction stocks with
  | nil => simp [costSum_nil]
  | cons s rest ih =>
    have hs := costTerm_bounds md aps s (hp s (List.mem_cons_self s rest)) ha
    have hr := ih (fun t ht => hp t (List.mem_cons_of_mem s ht))
    rw [costSum_cons]
    constructor
    · linarith [hs.1, hr.1]
    · have : ((s :: rest).length : ℚ) = (rest.length : ℚ) + 1 := by
        push_cast [List.length_cons]
        ring
      rw [this]
      nlinarith [hs.2, hr.2]

theorem portfolioAfter_get_notMem (md : MarketData) (aps : ℚ)
    (stocks : List String) (s : String) (hs : s ∉ stocks) :
    ∀ h : List (String × ℤ),
      dictGet (portfolioAfter md aps stocks h) s = dictGet h s := by
  induction stocks with
  | nil => intro h; simp [portfolioAfter]
  | cons t rest ih =>
    intro h
    have hst : s ≠ t := fun hh => hs (hh ▸ List.mem_cons_self t rest)
    have hsr : s ∉ rest := fun hh => hs (List.mem_cons_of_mem t hh)
    rw [portfolioAfter, List.foldl_cons]
    rw [show (List.foldl (fun acc u => dictSet acc u (pyInt (aps / priceOf md u)))
      (dictSet h t (pyInt (aps / priceOf md t))) rest) =
        portfolioAfter md aps rest (dictSet h t (pyInt (aps / priceOf md t)))
      from rfl]
    rw [ih hsr]
    exact dictGet_dictSet_ne h t s _ hst

theorem portfolioAfter_get_mem (md : MarketData) (aps : ℚ)
    (stocks : List String) (s : String) (hs : s ∈ stocks) :
    ∀ h : List (String × ℤ),
      dictGet (portfolioAfter md aps stocks h) s =
        some (pyInt (aps / priceOf md s)) := by
  induction stocks with
  | nil => simp at hs
  | cons t rest ih =>
    intro h
    rw [portfolioAfter, List.foldl_cons]
    rw [show (List.foldl (fun acc u => dictSet acc u (pyInt (aps / priceOf md u)))
      (dictSet h t (pyInt (aps / priceOf md t))) rest) =
        portfolioAfter md aps rest (dictSet h t (pyInt (aps / priceOf md t)))
      from rfl]
    by_cases hsr : s ∈ rest
    · exact ih hsr _
    · have hst : s = t := by
        rcases List.mem_cons.mp hs with h' | h'
        · exact h'
        · exact absurd h' hsr
      subst hst
      rw [portfolioAfter_get_notMem md aps rest s hsr]
      exact dictGet_dictSet_self h s _

/-- C1: for every investor and snapshot in which the selected instruments all
have positive prices, after one `invest` call on a non-empty selection the new
balance equals the old balance minus the sum of `shares * price` over all
processed entries, the new balance is non-negative, and the total purchase
cost plus the remaining balance never exceeds the original balance. -/
theorem invest_preserves_budget (inv : Investor) (md : MarketData)
    (stocks : List String) (hne : stocks ≠ [])
    (hp : ∀ s ∈ stocks, ∃ d, dictGet md s = some d ∧ 0 < d.price)
    (hb : 0 ≤ inv.balance) :
    ∃ inv', invest inv md stocks = some inv' ∧
      inv'.balance = inv.balance -
        costSum md (inv.balance / (stocks.length : ℚ)) stocks ∧
      0 ≤ inv'.balance ∧
      costSum md (inv.balance / (stocks.length : ℚ)) stocks + inv'.balance ≤
        inv.balance := by
  have hpres : ∀ s ∈ stocks, (dictGet md s).isSome := by
    intro s hs
    obtain ⟨d, hd, _⟩ := hp s hs
    simp [hd]
  have hpos : ∀ s ∈ stocks, 0 < priceOf md s := by
    intro s hs
    obtain ⟨d, hd, hdp⟩ := hp s hs
    rw [priceOf_eq hd]
    exact hdp
  have hlen : stocks.length ≠ 0 := by
    simpa using hne
  have hn : (0 : ℚ) < (stocks.length : ℚ) := by
    exact_mod_cast Nat.pos_of_ne_zero hlen
  have haps : 0 ≤ inv.balance / (stocks.length : ℚ) := div_nonneg hb hn.le
  obtain ⟨hc0, hc1⟩ :=
    costSum_bounds md (inv.balance / (stocks.length : ℚ)) stocks hpos haps
  have hcb : costSum md (inv.balance / (stocks.length : ℚ)) stocks ≤
      inv.balance := by
    have he : (stocks.length : ℚ) * (inv.balance / (stocks.length : ℚ)) =
        inv.balance := by
      field_simp
    linarith [hc1, he.le, he.ge]
  refine ⟨⟨inv.name,
    inv.balance - costSum md (inv.balance / (stocks.length : ℚ)) stocks,
    portfolioAfter md (inv.balance / (stocks.length : ℚ)) stocks
      inv.holdings⟩, ?_, rfl, by simp only; linarith, by simp only; linarith⟩
  rw [invest, if_neg hlen,
    investGo_eq md (inv.balance / (stocks.length : ℚ)) stocks hpres
      inv.balance inv.holdings]

/-- Witness for C1: one investor with balance 1000 buying the single stock
`X` priced 100. -/
theorem invest_preserves_budget_witness :
    (["X"] : List String) ≠ [] ∧
    (∀ s ∈ ["X"], ∃ d,
      dictGet [("X", ({ price := 100 } : StockData))] s = some d ∧
        0 < d.price) ∧
    0 ≤ (Investor.mk "P" 1000 []).balance ∧
    (∃ inv', invest (Investor.mk "P" 1000 [])
        [("X", ({ price := 100 } : StockData))] ["X"] = some inv' ∧
      inv'.balance = (Investor.mk "P" 1000 []).balance -
        costSum [("X", ({ price := 100 } : StockData))]
          ((Investor.mk "P" 1000 []).balance / ((["X"] : List String).length : ℚ))
          ["X"] ∧
      0 ≤ inv'.balance ∧
      costSum [("X", ({ price := 100 } : StockData))]
          ((Investor.mk "P" 1000 []).balance / ((["X"] : List String).length : ℚ))
          ["X"] + inv'.balance ≤ (Investor.mk "P" 1000 []).balance) := by
  refine ⟨by simp, ?_, by norm_num, ?_⟩
  · intro s hs
    simp only [List.mem_singleton] at hs
    subst hs
    exact ⟨{ price := 100 }, rfl, by norm_num⟩
  · exact invest_preserves_budget (Investor.mk "P" 1000 [])
      [("X", ({ price := 100 } : StockData))] ["X"] (by simp)
      (by
        intro s hs
        simp only [List.mem_singleton] at hs
        subst hs
        exact ⟨{ price := 100 }, rfl, by norm_num⟩)
      (by norm_num)

/-- C2: with `amount_per_stock = balance_before / count(stocks)`, every
selected symbol's recorded share count is `floor(amount_per_stock / price)`;
entries are processed in the strategy's returned order, a later duplicate
overwriting an earlier one (both write the same floor value, so the final
entry equals it); a symbol priced above `amount_per_stock` records 0 shares
and contributes 0 to the charged cost; the balance decrements accumulate
across all processed entries. -/
theorem invest_floor_allocation (inv : Investor) (md : MarketData)
    (stocks : List String) (hne : stocks ≠ [])
    (hp : ∀ s ∈ stocks, ∃ d, dictGet md s = some d ∧ 0 < d.price)
    (hb : 0 ≤ inv.balance) :
    ∃ inv', invest inv md stocks = some inv' ∧
      inv'.holdings = portfolioAfter md (inv.balance / (stocks.length : ℚ))
        stocks inv.holdings ∧
      (∀ s ∈ stocks, dictGet inv'.holdings s =
        some ⌊(inv.balance / (stocks.length : ℚ)) / priceOf md s⌋) ∧
      (∀ s ∈ stocks, inv.balance / (stocks.length : ℚ) < priceOf md s →
        dictGet inv'.holdings s = some 0 ∧
          costTerm md (inv.balance / (stocks.length : ℚ)) s = 0) ∧
      inv'.balance = inv.balance -
        costSum md (inv.balance / (stocks.length : ℚ)) stocks := by
  have hpres : ∀ s ∈ stocks, (dictGet md s).isSome := by
    intro s hs
    obtain ⟨d, hd, _⟩ := hp s hs
    simp [hd]
  have hpos : ∀ s ∈ stocks, 0 < priceOf md s := by
    intro s hs
    obtain ⟨d, hd, hdp⟩ := hp s hs
    rw [priceOf_eq hd]
    exact hdp
  have hlen : stocks.length ≠ 0 := by simpa using hne
  have hn : (0 : ℚ) < (stocks.length : ℚ) := by
    exact_mod_cast Nat.pos_of_ne_zero hlen
  have haps : 0 ≤ inv.balance / (stocks.length : ℚ) := div_nonneg hb hn.le
  have hfloor : ∀ s ∈ stocks,
      pyInt ((inv.balance / (stocks.length : ℚ)) / priceOf md s) =
        ⌊(inv.balance / (stocks.length : ℚ)) / priceOf md s⌋ := by
    intro s hs
    exact pyInt_eq_floor (div_nonneg haps (hpos s hs).le)
  refine ⟨⟨inv.name,
    inv.balance - costSum md (inv.balance / (stocks.length : ℚ)) stocks,
    portfolioAfter md (inv.balance / (stocks.length : ℚ)) stocks
      inv.holdings⟩, ?_, rfl, ?_, ?_, rfl⟩
  · rw [invest, if_neg hlen,
      investGo_eq md (inv.balance / (stocks.length : ℚ)) stocks hpres
        inv.balance inv.holdings]
  · intro s hs
    rw [portfolioAfter_get_mem md (inv.balance / (stocks.length : ℚ)) stocks s
      hs inv.holdings, hfloor s hs]
  · intro s hs hover
    have hzero : ⌊(inv.balance / (stocks.length : ℚ)) / priceOf md s⌋ = 0 := by
      rw [Int.floor_eq_zero_iff]
      constructor
      · exact div_nonneg haps (hpos s hs).le
      · rw [div_lt_one (hpos s hs)]
        exact hover
    refine ⟨?_, ?_⟩
    · rw [portfolioAfter_get_mem md (inv.balance / (stocks.length : ℚ)) stocks
        s hs inv.holdings, hfloor s hs, hzero]
    · rw [costTerm, hfloor s hs, hzero]
      simp

/-- Witness for C2: balance 1000 split across two stocks, one affordable
(price 40) and one priced above the 500 per-stock amount (price 600). -/
theorem invest_floor_allocation_witness :
    (["A", "B"] : List String) ≠ [] ∧
    (∀ s ∈ (["A", "B"] : List String), ∃ d,
      dictGet [("A", ({ price := 40 } : StockData)),
        ("B", ({ price := 600 } : StockData))] s = some d ∧ 0 < d.price) ∧
    0 ≤ (Investor.mk "P" 1000 []).balance ∧
    (∃ inv', invest (Investor.mk "P" 1000 [])
        [("A", ({ price := 40 } : StockData)),
          ("B", ({ price := 600 } : StockData))] ["A", "B"] = some inv' ∧
      inv'.holdings = portfolioAfter
        [("A", ({ price := 40 } : StockData)),
          ("B", ({ price := 600 } : StockData))]
        ((Investor.mk "P" 1000 []).balance /
          (((["A", "B"] : List String)).length : ℚ)) ["A", "B"] [] ∧
      (∀ s ∈ (["A", "B"] : List String), dictGet inv'.holdings s =
        some ⌊((Investor.mk "P" 1000 []).balance /
          (((["A", "B"] : List String)).length : ℚ)) /
            priceOf [("A", ({ price := 40 } : StockData)),
              ("B", ({ price := 600 } : StockData))] s⌋) ∧
      (∀ s ∈ (["A", "B"] : List String),
        (Investor.mk "P" 1000 []).balance /
            (((["A", "B"] : List String)).length : ℚ) <
          priceOf [("A", ({ price := 40 } : StockData)),
            ("B", ({ price := 600 } : StockData))] s →
        dictGet inv'.holdings s = some 0 ∧
          costTerm [("A", ({ price := 40 } : StockData)),
              ("B", ({ price := 600 } : StockData))]
            ((Investor.mk "P" 1000 []).balance /
              (((["A", "B"] : List String)).length : ℚ)) s = 0) ∧
      inv'.balance = (Investor.mk "P" 1000 []).balance -
        costSum [("A", ({ price := 40 } : StockData)),
            ("B", ({ price := 600 } : StockData))]
          ((Investor.mk "P" 1000 []).balance /
            (((["A", "B"] : List String)).length : ℚ)) ["A", "B"]) := by
  refine ⟨by simp, ?_, by norm_num, ?_⟩
  · intro s hs
    rcases List.mem_cons.mp hs with h1 | hs
    · subst h1
      exact ⟨{ price := 40 }, rfl, by norm_num⟩
    · simp only [List.mem_singleton] at hs
      subst hs
      exact ⟨{ price := 600 }, rfl, by norm_num⟩
  · exact invest_floor_allocation (Investor.mk "P" 1000 [])
      [("A", ({ price := 40 } : StockData)),
        ("B", ({ price := 600 } : StockData))] ["A", "B"] (by simp)
      (by
        intro s hs
        rcases List.mem_cons.mp hs with h1 | hs
        · subst h1
          exact ⟨{ price := 40 }, rfl, by norm_num⟩
        · simp only [List.mem_singleton] at hs
          subst hs
          exact ⟨{ price := 600 }, rfl, by norm_num⟩)
      (by norm_num)

/-! ### Portfolio valuation -/

theorem initial_value_eq_some (holdings : List (String × ℤ))
    (md : MarketData) (hpres : ∀ kv ∈ holdings, (dictGet md kv.1).isSome) :
    initial_value holdings md =
      some ((holdings.map (fun kv => priceOf md kv.1 * (kv.2 : ℚ))).sum) := by
  induction holdings with
  | nil => simp [initial_value]
  | cons kv rest ih =>
    obtain ⟨s, q⟩ := kv
    obtain ⟨d, hd⟩ := Option.isSome_iff_exists.mp
      (hpres (s, q) (List.mem_cons_self _ _))
    have hrest := ih (fun kv hkv => hpres kv (List.mem_cons_of_mem _ hkv))
    rw [initial_value, hd, hrest]
    simp [priceOf_eq hd]

theorem final_value_eq (holdings : List (String × ℤ)) (md : MarketData) :
    final_value holdings md =
      ((holdings.filter (fun kv => (dictGet md kv.1).isSome)).map
        (fun kv => priceOf md kv.1 * (kv.2 : ℚ))).sum := by
  induction holdings with
  | nil => simp [final_value]
  | cons kv rest ih =>
    obtain ⟨s, q⟩ := kv
    cases hd : dictGet md s with
    | none =>
      rw [final_value, List.filterMap_cons]
      simp only [hd, Option.map_none']
      rw [← final_value, ih]
      simp [List.filter_cons, hd]
    | some d =>
      rw [final_value, List.filterMap_cons]
      simp only [hd, Option.map_some']
      rw [List.sum_cons, ← final_value, ih]
      simp [List.filter_cons, hd, priceOf_eq hd]

/-- C4 counterexample: a holdings map with a symbol absent from the snapshot
it is valued against on the initial side raises `KeyError` (`none`), instead
of contributing 0 to the value as the claim states. -/
theorem initial_value_missing_symbol_raises :
    initial_value [("X", 1)] [] = none ∧
    initial_value [("X", 1)] [] ≠ some 0 ∧
    calculate_portfolio_return [("X", 1)] []
      [("X", ({ price := 5 } : StockData))] = none := by
  refine ⟨rfl, by simp [initial_value, dictGet], rfl⟩

/-- C4 amended: a held symbol absent from the final snapshot contributes 0 to
the final value silently; the initial-snapshot valuation instead requires
every held symbol to be present, and under that presence condition it is the
sum of `shares * price`. -/
theorem portfolio_valuation_spec (holdings : List (String × ℤ))
    (initMd finMd : MarketData)
    (hpres : ∀ kv ∈ holdings, (dictGet initMd kv.1).isSome) :
    initial_value holdings initMd =
      some ((holdings.map (fun kv => priceOf initMd kv.1 * (kv.2 : ℚ))).sum) ∧
    final_value holdings finMd =
      ((holdings.filter (fun kv => (dictGet finMd kv.1).isSome)).map
        (fun kv => priceOf finMd kv.1 * (kv.2 : ℚ))).sum ∧
    (∀ (s : String) (q : ℤ), dictGet finMd s = none →
      final_value ((s, q) :: holdings) finMd = final_value holdings finMd) := by
  refine ⟨initial_value_eq_some holdings initMd hpres,
    final_value_eq holdings finMd, ?_⟩
  intro s q hnone
  rw [final_value, List.filterMap_cons]
  simp only [hnone, Option.map_none']
  rfl

/-- Witness for C4 (amended): holdings `{X: 2}` valued against an initial
snapshot containing `X` at price 3 and an empty final snapshot. -/
theorem portfolio_valuation_spec_witness :
    (∀ kv ∈ ([("X", 2)] : List (String × ℤ)),
      (dictGet [("X", ({ price := 3 } : StockData))] kv.1).isSome) ∧
    (initial_value [("X", 2)] [("X", ({ price := 3 } : StockData))] =
      some ((([("X", 2)] : List (String × ℤ))).map
        (fun kv => priceOf [("X", ({ price := 3 } : StockData))] kv.1 *
          (kv.2 : ℚ))).sum ∧
    final_value [("X", 2)] [] =
      (((([("X", 2)] : List (String × ℤ))).filter
        (fun kv => (dictGet ([] : MarketData) kv.1).isSome)).map
          (fun kv => priceOf ([] : MarketData) kv.1 * (kv.2 : ℚ))).sum ∧
    (∀ (s : String) (q : ℤ), dictGet ([] : MarketData) s = none →
      final_value ((s, q) :: [("X", 2)]) [] = final_value [("X", 2)] [])) := by
  refine ⟨?_, portfolio_valuation_spec [("X", 2)]
    [("X", ({ price := 3 } : StockData))] [] ?_⟩ <;>
  · intro kv hkv
    simp only [List.mem_singleton] at hkv
    subst hkv
    rfl

/-- C5 counterexample: the degenerate zero-baseline case (empty holdings) and
a genuine flat-performance case (one share of `X`, price unchanged at 100)
produce the identical observable result `some 0`; no status flag distinguishes
them for the caller. -/
theorem zero_baseline_indistinguishable :
    calculate_portfolio_return [] [("X", ({ price := 100 } : StockData))]
      [("X", ({ price := 100 } : StockData))] = some 0 ∧
    calculate_portfolio_return [("X", 1)]
      [("X", ({ price := 100 } : StockData))]
      [("X", ({ price := 100 } : StockData))] = some 0 ∧
    initial_value [] [("X", ({ price := 100 } : StockData))] = some 0 ∧
    initial_value [("X", 1)] [("X", ({ price := 100 } : StockData))] =
      some 100 := by
  refine ⟨rfl, ?_, rfl, ?_⟩
  · simp [calculate_portfolio_return, initial_value, final_value, dictGet]
  · simp [initial_value, dictGet]

/-- C5 amended: whenever the initial portfolio value is 0, the percent return
is exactly 0; the degenerate case is reported only through a printed message,
so the returned value alone cannot be distinguished from a real 0% return. -/
theorem zero_baseline_returns_zero (holdings : List (String × ℤ))
    (initMd finMd : MarketData)
    (h : initial_value holdings initMd = some 0) :
    calculate_portfolio_return holdings initMd finMd = some 0 := by
  simp [calculate_portfolio_return, h]

/-- Witness for C5 (amended): empty holdings against empty snapshots. -/
theorem zero_baseline_returns_zero_witness :
    initial_value [] [] = some 0 ∧
    calculate_portfolio_return [] [] [] = some 0 :=
  ⟨rfl, zero_baseline_returns_zero [] [] [] rfl⟩

/-- C6: evaluating the built-in sorted strategies at a well-formed snapshot
whose record carries only a price (the `change` attribute is optional per the
data model) raises `KeyError 'change'` (`none`) instead of returning
normally. `RandomStrategy.select_stocks` is not even embeddable as a total
function: the module never imports `random`, so every call raises
`NameError`. -/
theorem select_stocks_raises_on_missing_change :
    aggressive_select_stocks [("X", ({ price := 1 } : StockData))] = none ∧
    conservative_select_stocks [("X", ({ price := 1 } : StockData))] =
      none := by
  constructor <;>
    simp [aggressive_select_stocks, conservative_select_stocks,
      selectSortedBy]

/-- C7 counterexample: eleven supplied symbols all present in the snapshot
are all returned — the strategy applies no cap of 10. -/
theorem custom_select_no_cap :
    (custom_select_stocks ["A", "B", "C", "D", "E", "F", "G", "H", "I", "J",
        "K"]
      [("A", ({ price := 1 } : StockData)), ("B", { price := 1 }),
        ("C", { price := 1 }), ("D", { price := 1 }), ("E", { price := 1 }),
        ("F", { price := 1 }), ("G", { price := 1 }), ("H", { price := 1 }),
        ("I", { price := 1 }), ("J", { price := 1 }),
        ("K", { price := 1 })]).length = 11 ∧
    ¬ ((custom_select_stocks ["A", "B", "C", "D", "E", "F", "G", "H", "I",
        "J", "K"]
      [("A", ({ price := 1 } : StockData)), ("B", { price := 1 }),
        ("C", { price := 1 }), ("D", { price := 1 }), ("E", { price := 1 }),
        ("F", { price := 1 }), ("G", { price := 1 }), ("H", { price := 1 }),
        ("I", { price := 1 }), ("J", { price := 1 }),
        ("K", { price := 1 })]).length ≤ 10) := by
  constructor <;> decide

/-- C7 amended: the Custom (explicit list) strategy returns exactly the
supplied symbols that are present in the snapshot, preserving the caller's
order among matches; it enforces no cap, so more than 10 matches are all
returned. -/
theorem custom_select_spec (stocks : List String) (md : MarketData) :
    List.Sublist (custom_select_stocks stocks md) stocks ∧
    ∀ s, s ∈ custom_select_stocks stocks md ↔
      s ∈ stocks ∧ (dictGet md s).isSome := by
  refine ⟨List.filter_sublist stocks, ?_⟩
  intro s
  simp [custom_select_stocks, List.mem_filter]

/-- C9 counterexample: a record with both `market_cap` and `volatility`
absent fails the finite upper bounds (the `.get` default `float('inf')`
exceeds them), so the symbol is excluded and the constructor returns `None` —
the claim instead demands the symbol be treated as satisfying the bounds. -/
theorem criteria_excludes_missing_attribute :
    criteria_selected 0 100 0 100 [("X", ({ price := 1 } : StockData))] =
      [] ∧
    create_custom_strategy 0 100 0 100
      [("X", ({ price := 1 } : StockData))] = none := by
  constructor <;>
    simp [create_custom_strategy, criteria_selected, inRange, attrVal]

/-- C9 amended: the criteria-based selection contains exactly the symbols
whose `market_cap` and `volatility`, read with default `float('inf')` for a
missing attribute, fall within the closed bounds; consequently a missing
attribute always satisfies the lower bound but violates every finite upper
bound, excluding the symbol. The selection preserves snapshot iteration
order, the constructed strategy caps at 10 symbols, and an empty selection
makes the constructor return `None` rather than raise. -/
theorem criteria_strategy_spec (minCap maxCap minVol maxVol : ℚ)
    (md : MarketData) :
    (∀ s, s ∈ criteria_selected minCap maxCap minVol maxVol md ↔
      ∃ d, (s, d) ∈ md ∧
        (minCap : WithTop ℚ) ≤ attrVal d.market_cap ∧
        attrVal d.market_cap ≤ (maxCap : WithTop ℚ) ∧
        (minVol : WithTop ℚ) ≤ attrVal d.volatility ∧
        attrVal d.volatility ≤ (maxVol : WithTop ℚ)) ∧
    List.Sublist (criteria_selected minCap maxCap minVol maxVol md)
      (md.map Prod.fst) ∧
    (∀ kv : String × StockData, kv.2.market_cap = none →
      ¬ (attrVal kv.2.market_cap ≤ (maxCap : WithTop ℚ))) ∧
    (create_custom_strategy minCap maxCap minVol maxVol md = none ↔
      criteria_selected minCap maxCap minVol maxVol md = []) ∧
    (∀ l, create_custom_strategy minCap maxCap minVol maxVol md = some l →
      l.length ≤ 10 ∧
        List.Sublist l (criteria_selected minCap maxCap minVol maxVol md)) := by
  refine ⟨?_, ?_, ?_, ?_, ?_⟩
  · intro s
    simp only [criteria_selected, List.mem_map, List.mem_filter,
      Bool.and_eq_true, inRange, decide_eq_true_eq]
    constructor
    · rintro ⟨⟨s₁, d⟩, ⟨hmem, ⟨h1, h2⟩, h3, h4⟩, hfst⟩
      subst hfst
      exact ⟨d, hmem, h1, h2, h3, h4⟩
    · rintro ⟨d, hmem, h1, h2, h3, h4⟩
      exact ⟨(s, d), ⟨hmem, ⟨h1, h2⟩, h3, h4⟩, rfl⟩
  · exact List.Sublist.map Prod.fst (List.filter_sublist md)
  · intro kv hnone
    rw [hnone]
    simp only [attrVal]
    exact WithTop.not_top_le_coe maxCap
  · rw [create_custom_strategy]
    by_cases h : criteria_selected minCap maxCap minVol maxVol md = [] <;>
      simp [h]
  · intro l hl
    rw [create_custom_strategy] at hl
    by_cases h : criteria_selected minCap maxCap minVol maxVol md = []
    · simp [h] at hl
    · rw [if_neg h] at hl
      injection hl with hl
      subst hl
      exact ⟨List.length_take_le 10 _, List.take_sublist 10 _⟩

/-! ### The sorted selection strategies -/

theorem changeOf_eq {md : MarketData} {kv : String × StockData}
    (hnd : (md.map Prod.fst).Nodup) (hmem : kv ∈ md) :
    changeOf md kv.1 = kv.2.change.getD 0 := by
  rw [changeOf, dictGet_of_mem_nodup hnd (by
    rw [show (kv.1, kv.2) = kv from rfl]
    exact hmem)]
  rfl

theorem selectSortedBy_spec (key : ℚ → ℚ) (md : MarketData)
    (hnd : (md.map Prod.fst).Nodup)
    (hch : ∀ kv ∈ md, kv.2.change.isSome) :
    ∃ l, selectSortedBy key md = some l ∧
      l.length ≤ 10 ∧
      l.Nodup ∧
      (∀ s ∈ l, (dictGet md s).isSome) ∧
      l.Pairwise (fun s t => key (changeOf md s) ≤ key (changeOf md t)) ∧
      (∀ v : ℚ, List.Sublist
        (l.filter (fun s => decide (key (changeOf md s) = v)))
        ((md.map Prod.fst).filter
          (fun s => decide (key (changeOf md s) = v)))) := by
  have htrans : ∀ a b c : String × StockData,
      (fun a b : String × StockData =>
        decide (key (a.2.change.getD 0) ≤ key (b.2.change.getD 0))) a b →
      (fun a b : String × StockData =>
        decide (key (a.2.change.getD 0) ≤ key (b.2.change.getD 0))) b c →
      (fun a b : String × StockData =>
        decide (key (a.2.change.getD 0) ≤ key (b.2.change.getD 0))) a c := by
    intro a b c hab hbc
    simp only [decide_eq_true_eq] at *
    exact le_trans hab hbc
  have htotal : ∀ a b : String × StockData,
      ((fun a b : String × StockData =>
        decide (key (a.2.change.getD 0) ≤ key (b.2.change.getD 0))) a b ||
      (fun a b : String × StockData =>
        decide (key (a.2.change.getD 0) ≤ key (b.2.change.getD 0))) b a) := by
    intro a b
    simp only [Bool.or_eq_true, decide_eq_true_eq]
    exact le_total _ _
  have hperm : List.Perm (md.mergeSort (fun a b =>
      decide (key (a.2.change.getD 0) ≤ key (b.2.change.getD 0)))) md :=
    List.mergeSort_perm md _
  have hmem_md : ∀ kv ∈ (md.mergeSort (fun a b =>
      decide (key (a.2.change.getD 0) ≤ key (b.2.change.getD 0)))).take 10,
      kv ∈ md := by
    intro kv hkv
    exact hperm.mem_iff.mp ((List.take_sublist 10 _).mem hkv)
  refine ⟨_, by rw [selectSortedBy, if_pos hch], ?_, ?_, ?_, ?_, ?_⟩
  · rw [List.length_map]
    exact List.length_take_le 10 _
  · have h1 : List.Perm ((md.mergeSort (fun a b =>
        decide (key (a.2.change.getD 0) ≤ key (b.2.change.getD 0)))).map
          Prod.fst) (md.map Prod.fst) := hperm.map Prod.fst
    have h2 : (((md.mergeSort (fun a b =>
        decide (key (a.2.change.getD 0) ≤ key (b.2.change.getD 0)))).map
          Prod.fst)).Nodup := h1.nodup_iff.mpr hnd
    rw [List.map_take]
    exact h2.sublist (List.take_sublist 10 _)
  · intro s hs
    rw [List.mem_map] at hs
    obtain ⟨kv, hkv, hfst⟩ := hs
    subst hfst
    rw [dictGet_isSome_iff]
    exact List.mem_map.mpr ⟨kv, hmem_md kv hkv, rfl⟩
  · have hsorted := List.sorted_mergeSort htrans htotal md
    have htake := hsorted.sublist (List.take_sublist 10 _)
    rw [List.pairwise_map]
    refine htake.imp_of_mem ?_
    intro a b ha hb hab
    have ha' := hmem_md a ha
    have hb' := hmem_md b hb
    rw [changeOf_eq hnd ha', changeOf_eq hnd hb']
    simpa using hab
  · intro v
    have hcongr : ∀ kv ∈ md,
        (fun s => decide (key (changeOf md s) = v)) kv.1 =
          (fun kv : String × StockData =>
            decide (key (kv.2.change.getD 0) = v)) kv := by
      intro kv hkv
      simp only [changeOf_eq hnd hkv]
    have hpw : (md.filter (fun kv : String × StockData =>
        decide (key (kv.2.change.getD 0) = v))).Pairwise
        (fun a b : String × StockData =>
          decide (key (a.2.change.getD 0) ≤ key (b.2.change.getD 0))) := by
      apply List.pairwise_of_forall_mem_list
      intro a ha b hb
      have ha' := (List.mem_filter.mp ha).2
      have hb' := (List.mem_filter.mp hb).2
      simp only [decide_eq_true_eq] at ha' hb' ⊢
      rw [ha', hb']
    have hsub1 : List.Sublist (md.filter (fun kv : String × StockData =>
        decide (key (kv.2.change.getD 0) = v)))
        (md.mergeSort (fun a b =>
          decide (key (a.2.change.getD 0) ≤ key (b.2.change.getD 0)))) :=
      List.sublist_mergeSort htrans htotal hpw (List.filter_sublist md)
    have hsub2 := hsub1.filter (fun kv : String × StockData =>
      decide (key (kv.2.change.getD 0) = v))
    rw [List.filter_eq_self.mpr (fun a ha => (List.mem_filter.mp ha).2)]
      at hsub2
    have hpermf : List.Perm ((md.mergeSort (fun a b =>
        decide (key (a.2.change.getD 0) ≤ key (b.2.change.getD 0)))).filter
          (fun kv : String × StockData =>
            decide (key (kv.2.change.getD 0) = v)))
        (md.filter (fun kv : String × StockData =>
          decide (key (kv.2.change.getD 0) = v))) :=
      hperm.filter _
    have heqf : (md.mergeSort (fun a b =>
        decide (key (a.2.change.getD 0) ≤ key (b.2.change.getD 0)))).filter
          (fun kv : String × StockData =>
            decide (key (kv.2.change.getD 0) = v)) =
        md.filter (fun kv : String × StockData =>
          decide (key (kv.2.change.getD 0) = v)) :=
      (hsub2.eq_of_length hpermf.length_eq.symm).symm
    have hsub3 := ((List.take_sublist 10 (md.mergeSort (fun a b =>
        decide (key (a.2.change.getD 0) ≤ key (b.2.change.getD 0))))).filter
      (fun kv : String × StockData =>
        decide (key (kv.2.change.getD 0) = v)))
    rw [heqf] at hsub3
    have hmap := hsub3.map Prod.fst
    rw [List.filter_map, List.filter_map]
    have e1 : List.filter
        ((fun s => decide (key (changeOf md s) = v)) ∘ Prod.fst)
        (List.take 10 (md.mergeSort (fun a b =>
          decide (key (a.2.change.getD 0) ≤ key (b.2.change.getD 0))))) =
        List.filter (fun kv : String × StockData =>
          decide (key (kv.2.change.getD 0) = v))
        (List.take 10 (md.mergeSort (fun a b =>
          decide (key (a.2.change.getD 0) ≤ key (b.2.change.getD 0))))) :=
      List.filter_congr (fun kv hkv => hcongr kv (hmem_md kv hkv))
    have e2 : List.filter
        ((fun s => decide (key (changeOf md s) = v)) ∘ Prod.fst) md =
        List.filter (fun kv : String × StockData =>
          decide (key (kv.2.change.getD 0) = v)) md :=
      List.filter_congr (fun kv hkv => hcongr kv hkv)
    rw [e1, e2]
    exact hmap

/-- C8: on a non-empty snapshot whose records all carry the `change`
attribute and whose keys are unique, the Aggressive and Conservative
strategies return at most 10 symbols, all present in the snapshot, with no
duplicates; Aggressive's output is sorted by ascending `change` and
Conservative's by ascending `abs(change)`; ties are broken stably on the
snapshot's insertion order (for every key value, the returned symbols in that
tie class form a subsequence of the snapshot's symbols in that class, in
snapshot order). -/
theorem sorted_strategies_spec (md : MarketData) (_hne : md ≠ [])
    (hnd : (md.map Prod.fst).Nodup)
    (hch : ∀ kv ∈ md, kv.2.change.isSome) :
    ∃ la lc, aggressive_select_stocks md = some la ∧
      conservative_select_stocks md = some lc ∧
      la.length ≤ 10 ∧ lc.length ≤ 10 ∧ la.Nodup ∧ lc.Nodup ∧
      (∀ s ∈ la, (dictGet md s).isSome) ∧
      (∀ s ∈ lc, (dictGet md s).isSome) ∧
      la.Pairwise (fun s t => changeOf md s ≤ changeOf md t) ∧
      lc.Pairwise (fun s t => |changeOf md s| ≤ |changeOf md t|) ∧
      (∀ v : ℚ, List.Sublist
        (la.filter (fun s => decide (changeOf md s = v)))
        ((md.map Prod.fst).filter (fun s => decide (changeOf md s = v)))) ∧
      (∀ v : ℚ, List.Sublist
        (lc.filter (fun s => decide (|changeOf md s| = v)))
        ((md.map Prod.fst).filter
          (fun s => decide (|changeOf md s| = v)))) := by
  obtain ⟨la, hla, ha1, ha2, ha3, ha4, ha5⟩ :=
    selectSortedBy_spec (fun c => c) md hnd hch
  obtain ⟨lc, hlc, hc1, hc2, hc3, hc4, hc5⟩ :=
    selectSortedBy_spec (fun c => |c|) md hnd hch
  exact ⟨la, lc, hla, hlc, ha1, hc1, ha2, hc2, ha3, hc3, ha4, hc4, ha5, hc5⟩

/-- Witness for C8: a three-stock snapshot with a tie on `change` between
`B` and `C`. -/
theorem sorted_strategies_spec_witness :
    ([("A", ({ price := 1, change := some 2 } : StockData)),
      ("B", { price := 1, change := some (-1) }),
      ("C", { price := 1, change := some (-1) })] : MarketData) ≠ [] ∧
    ((([("A", ({ price := 1, change := some 2 } : StockData)),
      ("B", { price := 1, change := some (-1) }),
      ("C", { price := 1, change := some (-1) })] : MarketData)).map
        Prod.fst).Nodup ∧
    (∀ kv ∈ ([("A", ({ price := 1, change := some 2 } : StockData)),
      ("B", { price := 1, change := some (-1) }),
      ("C", { price := 1, change := some (-1) })] : MarketData),
      kv.2.change.isSome) ∧
    (∃ la lc, aggressive_select_stocks
        [("A", ({ price := 1, change := some 2 } : StockData)),
          ("B", { price := 1, change := some (-1) }),
          ("C", { price := 1, change := some (-1) })] = some la ∧
      conservative_select_stocks
        [("A", ({ price := 1, change := some 2 } : StockData)),
          ("B", { price := 1, change := some (-1) }),
          ("C", { price := 1, change := some (-1) })] = some lc ∧
      la.length ≤ 10 ∧ lc.length ≤ 10 ∧ la.Nodup ∧ lc.Nodup) := by
  refine ⟨by simp, by decide, by decide, ?_⟩
  obtain ⟨la, lc, h1, h2, h3, h4, h5, h6, -⟩ :=
    sorted_strategies_spec
      [("A", ({ price := 1, change := some 2 } : StockData)),
        ("B", { price := 1, change := some (-1) }),
        ("C", { price := 1, change := some (-1) })]
      (by simp) (by decide) (by decide)
  exact ⟨la, lc, h1, h2, h3, h4, h5, h6⟩

/-! ### The comparison engine -/

theorem pyMaxGo_spec (rest : List (String × ℚ)) :
    ∀ b : String × ℚ,
      (pyMaxGo b rest = b ∧ ∀ kv ∈ rest, kv.2 ≤ b.2) ∨
      (∃ pre post, rest = pre ++ pyMaxGo b rest :: post ∧
        b.2 < (pyMaxGo b rest).2 ∧
        (∀ kv ∈ pre, kv.2 < (pyMaxGo b rest).2) ∧
        (∀ kv ∈ post, kv.2 ≤ (pyMaxGo b rest).2)) := by
  induction rest with
  | nil => intro b; left; exact ⟨rfl, by simp⟩
  | cons q rest ih =>
    intro b
    by_cases hq : q.2 > b.2
    · have hstep : pyMaxGo b (q :: rest) = pyMaxGo q rest := by
        simp [pyMaxGo, List.foldl_cons, hq]
      rcases ih q with ⟨heq, hall⟩ | ⟨pre, post, heq, hlt, hpre, hpost⟩
      · right
        rw [hstep, heq]
        refine ⟨[], rest, by rw [List.nil_append], hq, by simp, ?_⟩
        intro kv hkv
        exact hall kv hkv
      · right
        rw [hstep]
        refine ⟨q :: pre, post, ?_, lt_trans hq hlt, ?_, hpost⟩
        · rw [List.cons_append, ← heq]
        · intro kv hkv
          rcases List.mem_cons.mp hkv with h1 | h2
          · subst h1; exact hlt
          · exact hpre kv h2
    · push_neg at hq
      have hstep : pyMaxGo b (q :: rest) = pyMaxGo b rest := by
        simp [pyMaxGo, List.foldl_cons, not_lt.mpr hq]
      rcases ih b with ⟨heq, hall⟩ | ⟨pre, post, heq, hlt, hpre, hpost⟩
      · left
        rw [hstep, heq]
        refine ⟨rfl, ?_⟩
        intro kv hkv
        rcases List.mem_cons.mp hkv with h1 | h2
        · subst h1; exact hq
        · exact hall kv h2
      · right
        rw [hstep]
        refine ⟨q :: pre, post, ?_, hlt, ?_, hpost⟩
        · rw [List.cons_append, ← heq]
        · intro kv hkv
          rcases List.mem_cons.mp hkv with h1 | h2
          · subst h1; exact lt_of_le_of_lt hq hlt
          · exact hpre kv h2

theorem pyMax_spec (m : List (String × ℚ)) (hne : m ≠ []) :
    ∃ best rb pre post, pyMax m = some best ∧
      m = pre ++ (best, rb) :: post ∧
      (∀ kv ∈ pre, kv.2 < rb) ∧ (∀ kv ∈ post, kv.2 ≤ rb) := by
  cases m with
  | nil => exact absurd rfl hne
  | cons kv rest =>
    have hpy : pyMax (kv :: rest) = some (pyMaxGo kv rest).1 := rfl
    rcases pyMaxGo_spec rest kv with ⟨heq, hall⟩ | ⟨pre, post, heq, hlt, hpre, hpost⟩
    · refine ⟨kv.1, kv.2, [], rest, ?_, by simp, by simp, hall⟩
      rw [hpy, heq]
    · refine ⟨(pyMaxGo kv rest).1, (pyMaxGo kv rest).2, kv :: pre, post,
        hpy, ?_, ?_, hpost⟩
      · show kv :: rest = kv :: (pre ++ pyMaxGo kv rest :: post)
        rw [← heq]
      · intro kw hkw
        rcases List.mem_cons.mp hkw with h1 | h2
        · subst h1; exact hlt
        · exact hpre kw h2

theorem pyMax_lookup_max (m : List (String × ℚ)) (hne : m ≠ [])
    (hnd : (m.map Prod.fst).Nodup) :
    ∃ best rb, pyMax m = some best ∧ dictGet m best = some rb ∧
      (∀ kv ∈ m, kv.2 ≤ rb) ∧
      ∃ pre post, m = pre ++ (best, rb) :: post ∧ ∀ kv ∈ pre, kv.2 < rb := by
  obtain ⟨best, rb, pre, post, hpy, hdec, hpre, hpost⟩ := pyMax_spec m hne
  have hbest_not_pre : best ∉ pre.map Prod.fst := by
    rw [hdec, List.map_append, List.map_cons] at hnd
    have hdisj := (List.nodup_append.mp hnd).2.2
    intro hmem
    exact hdisj hmem (List.mem_cons_self _ _)
  refine ⟨best, rb, hpy, ?_, ?_, pre, post, hdec, hpre⟩
  · rw [hdec]
    exact dictGet_append_cons pre post best rb hbest_not_pre
  · intro kv hkv
    rw [hdec] at hkv
    rcases List.mem_append.mp hkv with h1 | h2
    · exact (hpre kv h1).le
    · rcases List.mem_cons.mp h2 with h3 | h4
      · subst h3; rfl
      · exact hpost kv h4

theorem calc_return_isSome (holdings : List (String × ℤ))
    (initMd finMd : MarketData)
    (hpres : ∀ kv ∈ holdings, (dictGet initMd kv.1).isSome) :
    ∃ r, calculate_portfolio_return holdings initMd finMd = some r := by
  rw [calculate_portfolio_return, initial_value_eq_some holdings initMd hpres]
  by_cases h : ((holdings.map
      (fun kv => priceOf initMd kv.1 * (kv.2 : ℚ))).sum) = 0 <;>
    simp [h]

theorem buildResults_eq (initMd finMd : MarketData) (invs : List Investor)
    (hpres : ∀ inv ∈ invs, ∀ kv ∈ inv.holdings,
      (dictGet initMd kv.1).isSome) :
    ∀ acc, buildResults initMd finMd invs acc =
      some (resultsOf initMd finMd invs acc) := by
  induction invs with
  | nil => intro acc; rfl
  | cons inv rest ih =>
    intro acc
    obtain ⟨r, hr⟩ := calc_return_isSome inv.holdings initMd finMd
      (hpres inv (List.mem_cons_self _ _))
    simp only [buildResults, hr]
    rw [ih (fun i hi => hpres i (List.mem_cons_of_mem _ hi))]
    have : (calculate_portfolio_return inv.holdings initMd finMd).getD 0 =
        r := by rw [hr]; rfl
    rw [show resultsOf initMd finMd (inv :: rest) acc =
      resultsOf initMd finMd rest (dictSet acc inv.name
        ((calculate_portfolio_return inv.holdings initMd finMd).getD 0))
      from rfl, this]

theorem resultsOf_keys_nodup (initMd finMd : MarketData)
    (invs : List Investor) :
    ∀ acc, (acc.map Prod.fst).Nodup →
      ((resultsOf initMd finMd invs acc).map Prod.fst).Nodup := by
  induction invs with
  | nil => intro acc h; exact h
  | cons inv rest ih =>
    intro acc h
    exact ih _ (dictSet_keys_nodup acc inv.name _ h)

theorem resultsOf_eq_map (initMd finMd : MarketData) (invs : List Investor)
    (hnd : (invs.map Investor.name).Nodup) :
    ∀ acc, (∀ n ∈ invs.map Investor.name, n ∉ acc.map Prod.fst) →
      resultsOf initMd finMd invs acc = acc ++ invs.map (fun inv =>
        (inv.name,
          (calculate_portfolio_return inv.holdings initMd finMd).getD 0)) := by
  induction invs with
  | nil => intro acc _; simp [resultsOf]
  | cons inv rest ih =>
    intro acc hdisj
    rw [List.map_cons, List.nodup_cons] at hnd
    have hnotin : inv.name ∉ acc.map Prod.fst :=
      hdisj inv.name (by simp)
    rw [show resultsOf initMd finMd (inv :: rest) acc =
      resultsOf initMd finMd rest (dictSet acc inv.name
        ((calculate_portfolio_return inv.holdings initMd finMd).getD 0))
      from rfl]
    rw [dictSet_eq_append_of_notMem acc inv.name _ hnotin]
    rw [ih hnd.2 _ ?_]
    · simp
    · intro n hn hmem
      rw [List.map_append] at hmem
      rcases List.mem_append.mp hmem with h1 | h2
      · exact hdisj n (List.mem_cons_of_mem _ hn) h1
      · simp only [List.map_cons, List.map_nil, List.mem_singleton] at h2
        subst h2
        exact hnd.1 hn

theorem resultsOf_lookup (initMd finMd : MarketData) (invs : List Investor) :
    ∀ (acc : List (String × ℚ)) (name : String),
      dictGet (resultsOf initMd finMd invs acc) name =
        match (invs.filter (fun i => i.name = name)).getLast? with
        | some inv =>
          some ((calculate_portfolio_return inv.holdings initMd finMd).getD 0)
        | none => dictGet acc name := by
  induction invs with
  | nil => intro acc name; simp [resultsOf]
  | cons inv rest ih =>
    intro acc name
    rw [show resultsOf initMd finMd (inv :: rest) acc =
      resultsOf initMd finMd rest (dictSet acc inv.name
        ((calculate_portfolio_return inv.holdings initMd finMd).getD 0))
      from rfl]
    rw [ih]
    by_cases hname : inv.name = name
    · have hfilter : (inv :: rest).filter (fun i => i.name = name) =
          inv :: rest.filter (fun i => i.name = name) := by
        simp [List.filter_cons, hname]
      rw [hfilter]
      cases hfl : rest.filter (fun i => i.name = name) with
      | nil =>
        simp only [List.getLast?_singleton, List.getLast?_nil]
        subst hname
        exact dictGet_dictSet_self acc inv.name _
      | cons j l =>
        simp only [List.getLast?_cons_cons]
        cases hgl : (j :: l).getLast? with
        | none => exact absurd (List.getLast?_eq_none_iff.mp hgl) (by simp)
        | some k => rfl
    · have hfilter : (inv :: rest).filter (fun i => i.name = name) =
          rest.filter (fun i => i.name = name) := by
        simp [List.filter_cons, hname]
      rw [hfilter]
      cases hfl : rest.filter (fun i => i.name = name) with
      | nil =>
        simp only [List.getLast?_nil]
        exact dictGet_dictSet_ne acc inv.name name _
          (fun hh => hname hh.symm)
      | cons j l =>
        cases hgl : (j :: l).getLast? with
        | none => exact absurd (List.getLast?_eq_none_iff.mp hgl) (by simp)
        | some k => rfl

theorem resultsOf_lookup_isSome (initMd finMd : MarketData)
    (invs : List Investor) (acc : List (String × ℚ)) (name : String)
    (hmem : name ∈ invs.map Investor.name) :
    (dictGet (resultsOf initMd finMd invs acc) name).isSome := by
  obtain ⟨inv, hinv, hn⟩ := List.mem_map.mp hmem
  have hfne : invs.filter (fun i => i.name = name) ≠ [] := by
    intro hcon
    have : inv ∈ invs.filter (fun i => i.name = name) :=
      List.mem_filter.mpr ⟨hinv, by simp [hn]⟩
    rw [hcon] at this
    simp at this
  rw [resultsOf_lookup]
  cases hfl : (invs.filter (fun i => i.name = name)).getLast? with
  | none => exact absurd (List.getLast?_eq_none_iff.mp hfl) hfne
  | some j => simp

/-- C3 counterexample: on an empty investor sequence `compare_portfolios`
raises `ValueError` (Python's `max` over an empty dict), embedded as `none` —
no mapping or best-performer name is returned, contradicting the claim's
quantification over every ordered sequence. -/
theorem compare_portfolios_empty_raises :
    compare_portfolios [] [] [] = none := rfl

/-- C3 amended: for every non-empty ordered investor sequence with unique
names whose held symbols all appear in the initial snapshot, the comparison
computes (and reports) the mapping from investor name to percent return, in
investor order, together with the best performer: the first-encountered entry
attaining the maximum return (every earlier entry is strictly below it, every
entry is at most it). The computation reads but never mutates its inputs. -/
theorem compare_portfolios_spec (invs : List Investor)
    (initMd finMd : MarketData) (hne : invs ≠ [])
    (hnames : (invs.map Investor.name).Nodup)
    (hpres : ∀ inv ∈ invs, ∀ kv ∈ inv.holdings,
      (dictGet initMd kv.1).isSome) :
    ∃ results best rb,
      compare_portfolios invs initMd finMd = some (results, best) ∧
      results.map Prod.fst = invs.map Investor.name ∧
      (∀ inv ∈ invs, ∃ r,
        calculate_portfolio_return inv.holdings initMd finMd = some r ∧
        dictGet results inv.name = some r) ∧
      dictGet results best = some rb ∧
      (∀ kv ∈ results, kv.2 ≤ rb) ∧
      (∃ pre post, results = pre ++ (best, rb) :: post ∧
        ∀ kv ∈ pre, kv.2 < rb) := by
  have hres := buildResults_eq initMd finMd invs hpres []
  have hmap : resultsOf initMd finMd invs [] = invs.map (fun inv =>
      (inv.name,
        (calculate_portfolio_return inv.holdings initMd finMd).getD 0)) := by
    simpa using resultsOf_eq_map initMd finMd invs hnames [] (by simp)
  have hkeys : (resultsOf initMd finMd invs []).map Prod.fst =
      invs.map Investor.name := by
    rw [hmap, List.map_map]
    rfl
  have hRne : resultsOf initMd finMd invs [] ≠ [] := by
    rw [hmap]
    simp [hne]
  have hRnodup : ((resultsOf initMd finMd invs []).map Prod.fst).Nodup := by
    rw [hkeys]
    exact hnames
  obtain ⟨best, rb, hpy, hget, hmax, pre, post, hdecomp, hpre⟩ :=
    pyMax_lookup_max (resultsOf initMd finMd invs []) hRne hRnodup
  refine ⟨resultsOf initMd finMd invs [], best, rb, ?_, hkeys, ?_, hget,
    hmax, pre, post, hdecomp, hpre⟩
  · rw [compare_portfolios, hres]
    simp only [hpy]
  · intro inv hinv
    obtain ⟨r, hr⟩ := calc_return_isSome inv.holdings initMd finMd
      (hpres inv hinv)
    have hmem : (inv.name,
        (calculate_portfolio_return inv.holdings initMd finMd).getD 0) ∈
        resultsOf initMd finMd invs [] := by
      rw [hmap]
      exact List.mem_map.mpr ⟨inv, hinv, rfl⟩
    refine ⟨r, hr, ?_⟩
    rw [dictGet_of_mem_nodup hRnodup hmem, hr]
    rfl

/-- Witness for C3 (amended): Alice holds one share of `X` (price 100 → 110,
a 10% return) and Bob holds nothing (0% with the zero baseline). -/
theorem compare_portfolios_spec_witness :
    ([Investor.mk "Alice" 0 [("X", 1)], Investor.mk "Bob" 0 []] :
      List Investor) ≠ [] ∧
    ((([Investor.mk "Alice" 0 [("X", 1)], Investor.mk "Bob" 0 []] :
      List Investor)).map Investor.name).Nodup ∧
    (∀ inv ∈ ([Investor.mk "Alice" 0 [("X", 1)], Investor.mk "Bob" 0 []] :
      List Investor), ∀ kv ∈ inv.holdings,
      (dictGet [("X", ({ price := 100 } : StockData))] kv.1).isSome) ∧
    (∃ results best rb,
      compare_portfolios
        [Investor.mk "Alice" 0 [("X", 1)], Investor.mk "Bob" 0 []]
        [("X", ({ price := 100 } : StockData))]
        [("X", ({ price := 110 } : StockData))] = some (results, best) ∧
      results.map Prod.fst =
        (([Investor.mk "Alice" 0 [("X", 1)], Investor.mk "Bob" 0 []] :
          List Investor)).map Investor.name ∧
      dictGet results best = some rb ∧
      (∀ kv ∈ results, kv.2 ≤ rb)) := by
  have hpres : ∀ inv ∈ ([Investor.mk "Alice" 0 [("X", 1)],
      Investor.mk "Bob" 0 []] : List Investor), ∀ kv ∈ inv.holdings,
      (dictGet [("X", ({ price := 100 } : StockData))] kv.1).isSome := by
    intro inv hinv kv hkv
    rcases List.mem_cons.mp hinv with h1 | h2
    · subst h1
      simp only [List.mem_singleton] at hkv
      subst hkv
      rfl
    · simp only [List.mem_singleton] at h2
      subst h2
      simp at hkv
  refine ⟨by simp, by decide, hpres, ?_⟩
  obtain ⟨results, best, rb, h1, h2, -, h4, h5, -⟩ :=
    compare_portfolios_spec
      [Investor.mk "Alice" 0 [("X", 1)], Investor.mk "Bob" 0 []]
      [("X", ({ price := 100 } : StockData))]
      [("X", ({ price := 110 } : StockData))]
      (by simp) (by decide) hpres
  exact ⟨results, best, rb, h1, h2, h4, h5⟩

/-- C10: on any non-empty investor sequence (in particular one containing two
investors with the same name) whose held symbols appear in the initial
snapshot, the comparison raises no error; the results dict holds one entry
per distinct name, and a repeated name maps to the percent return of the
**last** investor carrying it (last write wins, the earlier result is
silently overwritten); the best-performer selection ranges over exactly
these surviving entries. -/
theorem compare_portfolios_last_write_wins (invs : List Investor)
    (initMd finMd : MarketData) (hne : invs ≠ [])
    (hpres : ∀ inv ∈ invs, ∀ kv ∈ inv.holdings,
      (dictGet initMd kv.1).isSome) :
    ∃ results best rb,
      compare_portfolios invs initMd finMd = some (results, best) ∧
      (results.map Prod.fst).Nodup ∧
      (∀ name ∈ invs.map Investor.name, ∃ inv,
        (invs.filter (fun i => i.name = name)).getLast? = some inv ∧
        dictGet results name =
          calculate_portfolio_return inv.holdings initMd finMd) ∧
      dictGet results best = some rb ∧
      (∀ kv ∈ results, kv.2 ≤ rb) := by
  have hres := buildResults_eq initMd finMd invs hpres []
  have hRnodup : ((resultsOf initMd finMd invs []).map Prod.fst).Nodup :=
    resultsOf_keys_nodup initMd finMd invs [] (by simp)
  have hRne : resultsOf initMd finMd invs [] ≠ [] := by
    obtain ⟨i, rest, rfl⟩ : ∃ i rest, invs = i :: rest := by
      cases invs with
      | nil => exact absurd rfl hne
      | cons i rest => exact ⟨i, rest, rfl⟩
    have hsome := resultsOf_lookup_isSome initMd finMd (i :: rest) [] i.name
      (by simp)
    intro hcon
    rw [hcon] at hsome
    simp [dictGet] at hsome
  obtain ⟨best, rb, hpy, hget, hmax, -⟩ :=
    pyMax_lookup_max (resultsOf initMd finMd invs []) hRne hRnodup
  refine ⟨resultsOf initMd finMd invs [], best, rb, ?_, hRnodup, ?_, hget,
    hmax⟩
  · rw [compare_portfolios, hres]
    simp only [hpy]
  · intro name hnm
    have hfne : invs.filter (fun i => i.name = name) ≠ [] := by
      obtain ⟨inv, hinv, hn⟩ := List.mem_map.mp hnm
      intro hcon
      have : inv ∈ invs.filter (fun i => i.name = name) :=
        List.mem_filter.mpr ⟨hinv, by simp [hn]⟩
      rw [hcon] at this
      simp at this
    cases hfl : (invs.filter (fun i => i.name = name)).getLast? with
    | none => exact absurd (List.getLast?_eq_none_iff.mp hfl) hfne
    | some inv =>
      have hinv_mem : inv ∈ invs :=
        List.filter_subset' invs (List.mem_of_getLast?_eq_some hfl)
      obtain ⟨r, hr⟩ := calc_return_isSome inv.holdings initMd finMd
        (hpres inv hinv_mem)
      refine ⟨inv, rfl, ?_⟩
      rw [resultsOf_lookup, hfl]
      show some
        ((calculate_portfolio_return inv.holdings initMd finMd).getD 0) =
        calculate_portfolio_return inv.holdings initMd finMd
      rw [hr]
      rfl

/-- Witness for C10: two investors both named `A`; the first holds one share
of `X` (a 50% return), the second holds nothing (returns 0); the surviving
entry under `A` is the second investor's. -/
theorem compare_portfolios_last_write_wins_witness :
    ([Investor.mk "A" 0 [("X", 1)], Investor.mk "A" 0 []] :
      List Investor) ≠ [] ∧
    (∀ inv ∈ ([Investor.mk "A" 0 [("X", 1)], Investor.mk "A" 0 []] :
      List Investor), ∀ kv ∈ inv.holdings,
      (dictGet [("X", ({ price := 100 } : StockData))] kv.1).isSome) ∧
    (∃ results best rb,
      compare_portfolios [Investor.mk "A" 0 [("X", 1)], Investor.mk "A" 0 []]
        [("X", ({ price := 100 } : StockData))]
        [("X", ({ price := 150 } : StockData))] = some (results, best) ∧
      (results.map Prod.fst).Nodup ∧
      dictGet results best = some rb ∧
      (∀ kv ∈ results, kv.2 ≤ rb)) := by
  have hpres : ∀ inv ∈ ([Investor.mk "A" 0 [("X", 1)],
      Investor.mk "A" 0 []] : List Investor), ∀ kv ∈ inv.holdings,
      (dictGet [("X", ({ price := 100 } : StockData))] kv.1).isSome := by
    intro inv hinv kv hkv
    rcases List.mem_cons.mp hinv with h1 | h2
    · subst h1
      simp only [List.mem_singleton] at hkv
      subst hkv
      rfl
    · simp only [List.mem_singleton] at h2
      subst h2
      simp at hkv
  refine ⟨by simp, hpres, ?_⟩
  obtain ⟨results, best, rb, h1, h2, -, h4, h5⟩ :=
    compare_portfolios_last_write_wins
      [Investor.mk "A" 0 [("X", 1)], Investor.mk "A" 0 []]
      [("X", ({ price := 100 } : StockData))]
      [("X", ({ price := 150 } : StockData))]
      (by simp) hpres
  exact ⟨results, best, rb, h1, h2, h4, h5⟩

/-- C8 counterexample: a non-empty snapshot whose single record carries only
a price makes the Conservative strategy raise `KeyError 'change'` (`none`)
instead of returning a (≤ 10)-element symbol list, so the claim's
quantification over any non-empty snapshot fails; the amended claim requires
every record to carry the `change` attribute. -/
theorem sorted_strategies_raise_on_price_only :
    conservative_select_stocks [("Y", ({ price := 2 } : StockData))] =
      none ∧
    aggressive_select_stocks [("Y", ({ price := 2 } : StockData))] ≠
      some [] := by
  constructor <;>
    simp [conservative_select_stocks, aggressive_select_stocks,
      selectSortedBy]
